import Mathlib

/-!
Shallow embedding of the curation / review-store core of the news-mvp
repository (src/modules/curation.py, src/modules/store.py,
src/modules/crawler.py, src/app.py), together with proofs of the
specification's claims about it.

Strings are modelled as lists of Unicode code points (`Str := List Nat`);
Python's `str.lower` is modelled character-wise on the ASCII range, which is
the range the normalizer's behaviour is specified over.
-/

namespace NewsMVP

/-- A Python string, as its list of Unicode code points. -/
abbrev Str := List Nat

/-- Whitespace code points: the characters matched by Python's `\s` regex
class on `str` and stripped by `str.strip()`. -/
def wsCp (n : Nat) : Bool :=
  n == 9 || n == 10 || n == 11 || n == 12 || n == 13 || n == 32 ||
  n == 0x1c || n == 0x1d || n == 0x1e || n == 0x1f || n == 0x85 ||
  n == 0xa0 || n == 0x1680 || (0x2000 ≤ n && n ≤ 0x200a) ||
  n == 0x2028 || n == 0x2029 || n == 0x202f || n == 0x205f || n == 0x3000

/-- Character-wise lower-casing (ASCII range), modelling `str.lower`. -/
def lowerCp (n : Nat) : Nat := if 65 ≤ n ∧ n ≤ 90 then n + 32 else n

/-- Model of `str.lower` on a whole string. -/
def lowerStr (s : Str) : Str := s.map lowerCp

/-- The bracket/dash code points removed by `normalize_title`:
`[ ] ( ) { } - – —` (regex `[\[\]\(\)\{\}\-–—]` in curation.py). -/
def bracketCp (n : Nat) : Bool :=
  n == 91 || n == 93 || n == 40 || n == 41 || n == 123 || n == 125 ||
  n == 45 || n == 0x2013 || n == 0x2014

/-- Python `s.strip()`: drop leading and trailing whitespace. -/
def pyStrip (s : Str) : Str := List.rdropWhile wsCp (s.dropWhile wsCp)

/-- State-machine core of `re.sub(r"\s+", " ", s)`: the flag records whether
the previous character was whitespace (so the run was already replaced). -/
def subWsAux : Bool → Str → Str
  | _, [] => []
  | true, c :: rest =>
    if wsCp c then subWsAux true rest else c :: subWsAux false rest
  | false, c :: rest =>
    if wsCp c then 32 :: subWsAux true rest else c :: subWsAux false rest

/-- Model of `re.sub(r"\s+", " ", s)`: collapse every whitespace run to one space. -/
def subWs (s : Str) : Str := subWsAux false s

/-- Embedding of `normalize_title` from src/modules/curation.py: lowercase, remove
bracket/dash characters, collapse whitespace runs to single spaces, strip. -/
def normalize_title (title : Str) : Str :=
  let lowered := lowerStr title
  let no_brackets := lowered.filter (fun c => !bracketCp c)
  pyStrip (subWs no_brackets)

/-- A raw article item (a Python dict in the source); absent keys behave as
the empty string, so fields are total with `[]` as the default. -/
structure RawItem where
  title : Str := []
  url : Str := []
  pubDate : Str := []
  deriving Repr, DecidableEq

/-- The loop body of `deduplicate` from src/modules/curation.py, with the
two seen-sets made explicit (membership is all the source uses them for). -/
def dedupGo (seen_titles seen_urls : List Str) : List RawItem → List RawItem
  | [] => []
  | art :: rest =>
    let url := pyStrip art.url
    let norm_title := normalize_title art.title
    if url ≠ [] ∧ url ∈ seen_urls then
      dedupGo seen_titles seen_urls rest
    else if norm_title ≠ [] ∧ norm_title ∉ seen_titles then
      art :: dedupGo (norm_title :: seen_titles)
        (if url ≠ [] then url :: seen_urls else seen_urls) rest
    else
      dedupGo seen_titles seen_urls rest

/-- Embedding of `deduplicate` from src/modules/curation.py. -/
def deduplicate (articles : List RawItem) : List RawItem :=
  dedupGo [] [] articles

/-- The catch-all category `"읽을거리"` (GeneralReading). -/
def catchAllCategory : Str := [0xc77d, 0xc744, 0xac70, 0xb9ac]

/-- Python's `needle in hay` substring test. -/
def isSubstr (needle : Str) : Str → Bool
  | [] => needle.isEmpty
  | c :: t => needle.isPrefixOf (c :: t) || isSubstr needle t

/-- The inner keyword loop of `map_category`: `kw.lower() in t` for some
keyword of the category (Python `in` is substring containment). -/
def anyKeywordIn (t : Str) (keywords : List Str) : Bool :=
  keywords.any (fun kw => isSubstr (lowerStr kw) t)

/-- The category loop of `map_category`: first category with a matching
keyword wins, `"읽을거리"` when none matches. -/
def mapCategoryGo (t : Str) : List (Str × List Str) → Str
  | [] => catchAllCategory
  | (category, keywords) :: rest =>
    if anyKeywordIn t keywords then category else mapCategoryGo t rest

/-- Embedding of `map_category` from src/modules/curation.py; the ordered dict becomes an
ordered association list of (category, keywords). -/
def map_category (title : Str) (keywords_by_category : List (Str × List Str)) : Str :=
  mapCategoryGo (lowerStr title) keywords_by_category

/-- The fixed advertorial cue list of `is_advertorial`:
광고, 협찬, 제휴, 프로모션. -/
def adCues : List Str :=
  [[0xad11, 0xace0], [0xd611, 0xcc2c], [0xc81c, 0xd734],
   [0xd504, 0xb85c, 0xbaa8, 0xc158]]

/-- Embedding of `is_advertorial` from src/modules/curation.py. -/
def is_advertorial (title : Str) : Bool :=
  let lt := lowerStr title
  adCues.any (fun cue => isSubstr cue lt)

/-- An article as produced by `curate`: the raw item plus its category. -/
structure CuratedArticle where
  item : RawItem
  category : Str
  deriving Repr, DecidableEq

/-- Embedding of `curate` from src/modules/curation.py: advertorial filter, then
deduplicate, then category mapping. -/
def curate (articles : List RawItem)
    (keywords_by_category : List (Str × List Str)) : List CuratedArticle :=
  let filtered := articles.filter (fun a => !is_advertorial a.title)
  let unique := deduplicate filtered
  unique.map (fun a => ⟨a, map_category a.title keywords_by_category⟩)

/-! ## Review store (src/modules/store.py) -/

/-- The `Article` dataclass of src/modules/store.py. -/
structure Article where
  title : Str
  url : Str
  category : Str
  selected : Bool := false
  summary : Str := []
  deriving Repr, DecidableEq

/-- Embedding of `InMemoryStore.delete_by_url`: keep the articles whose url differs,
report whether the length changed. The store state is its article list. -/
def delete_by_url (articles : List Article) (url : Str) : List Article × Bool :=
  let before := articles.length
  let remaining := articles.filter (fun a => decide (a.url ≠ url))
  (remaining, decide (remaining.length ≠ before))

/-- Embedding of `InMemoryStore.set_selected`: set the flag on the first article with the
given url and stop; report whether one was found. -/
def set_selected (articles : List Article) (url : Str) (selected : Bool) :
    List Article × Bool :=
  match articles with
  | [] => ([], false)
  | a :: rest =>
    if a.url = url then ({a with selected := selected} :: rest, true)
    else
      let r := set_selected rest url selected
      (a :: r.1, r.2)

/-- Embedding of `InMemoryStore.set_summary`: set the summary on the first article with
the given url and stop; report whether one was found. -/
def set_summary (articles : List Article) (url : Str) (summary : Str) :
    List Article × Bool :=
  match articles with
  | [] => ([], false)
  | a :: rest =>
    if a.url = url then ({a with summary := summary} :: rest, true)
    else
      let r := set_summary rest url summary
      (a :: r.1, r.2)

/-- Modelled from the spec: `setCategory(url, category)` is called by
`review_category` in src/app.py, but `InMemoryStore` in src/modules/store.py
does not define it; spec §4.8 describes it as a linear scan keyed by URL that
updates the matching article's category and returns whether the URL was
found, like the other mutators. -/
def set_category (articles : List Article) (url : Str) (category : Str) :
    List Article × Bool :=
  match articles with
  | [] => ([], false)
  | a :: rest =>
    if a.url = url then ({a with category := category} :: rest, true)
    else
      let r := set_category rest url category
      (a :: r.1, r.2)

/-! ## Age filter and fetch orchestrator (src/modules/crawler.py) -/

/-- Result of `parsedate_to_datetime`: the naive timestamp (in seconds) and
the optional UTC offset (in seconds) carried by its timezone. -/
structure ParsedDate where
  naive : Int
  tz : Option Int
  deriving Repr, DecidableEq

/-- The UTC instant denoted by a parsed date: a timezone-less value is assumed
to be UTC (`replace(tzinfo=utc)`); an aware one is converted
(`astimezone(utc)`). -/
def utcInstant (pd : ParsedDate) : Int :=
  match pd.tz with
  | none => pd.naive
  | some off => pd.naive - off

/-- The per-item loop of `_filter_by_age` (the `parse` oracle stands for
`parsedate_to_datetime`, `none` for a raised parse error). -/
def filterByAgeGo (parse : Str → Option ParsedDate) (cutoff : Int) :
    List RawItem → List RawItem
  | [] => []
  | article :: rest =>
    let pub_date_str := pyStrip article.pubDate
    if pub_date_str = [] then filterByAgeGo parse cutoff rest
    else
      match parse pub_date_str with
      | none => filterByAgeGo parse cutoff rest
      | some pd =>
        if cutoff ≤ utcInstant pd then article :: filterByAgeGo parse cutoff rest
        else filterByAgeGo parse cutoff rest

/-- Embedding of `_filter_by_age` from src/modules/crawler.py. `none` models
`max_age_hours=None`; `not max_age_hours or max_age_hours <= 0` passes all
items through; otherwise `cutoff = now - timedelta(hours=h)`. -/
def filter_by_age (parse : Str → Option ParsedDate) (now : Int)
    (articles : List RawItem) (max_age_hours : Option Int) : List RawItem :=
  match max_age_hours with
  | none => articles
  | some h => if h ≤ 0 then articles else filterByAgeGo parse (now - h * 3600) articles

/-- Provider oracle: the outcome of the n-th `_fetch_naver_news_api` call
(an exception raised, or the returned items). -/
abbrev Provider := Nat → Except Unit (List RawItem)

/-- The inner retry loop of `crawl_naver_news`: `while attempts < 3 and not
success`. Returns the fetched items (`none` when every attempt raised) and
the next call index. -/
def attemptPage (provider : Provider) : Nat → Nat → Option (List RawItem) × Nat
  | callIdx, 0 => (none, callIdx)
  | callIdx, budget + 1 =>
    match provider callIdx with
    | .ok items => (some items, callIdx + 1)
    | .error _ => attemptPage provider (callIdx + 1) budget

/-- The `while remaining > 0` pagination loop of `crawl_naver_news` for one
keyword: on success subtract the returned count (forcing 0 on a short page);
on retry exhaustion force `remaining = 0`. Returns the collected raw items
and the next call index. -/
def keywordLoop (provider : Provider) (callIdx : Nat) (remaining : Int) :
    List RawItem × Nat :=
  if _h : remaining ≤ 0 then ([], callIdx)
  else
    let batch : Int := min 100 remaining
    match attemptPage provider callIdx 3 with
    | (none, idx2) => ([], idx2)
    | (some items, idx2) =>
      let remaining2 :=
        if (items.length : Int) < batch then 0 else remaining - items.length
      let rest := keywordLoop provider idx2 remaining2
      (items ++ rest.1, rest.2)
termination_by remaining.toNat
decreasing_by
  split <;> omega

/-- The `for kw in kw_list` loop of `crawl_naver_news`, threading the call
index and aggregating raw items across keywords. -/
def crawlKeywords (provider : Provider) (callIdx : Nat) (max_per_keyword : Int) :
    List Str → List RawItem × Nat
  | [] => ([], callIdx)
  | _kw :: rest =>
    let r := keywordLoop provider callIdx max_per_keyword
    let r2 := crawlKeywords provider r.2 max_per_keyword rest
    (r.1 ++ r2.1, r2.2)

/-- Embedding of `crawl_naver_news` (realdata path) from src/modules/crawler.py, with the
HTTP provider and the timestamp parser abstracted as oracles: fetch per
keyword with retry, then age-filter the aggregate, then curate it. -/
def crawl_naver_news (provider : Provider) (parse : Str → Option ParsedDate)
    (now : Int) (kw_list : List Str) (max_per_keyword : Int)
    (max_age_hours : Option Int)
    (keywords_by_category : List (Str × List Str)) : List CuratedArticle :=
  let raw := (crawlKeywords provider 0 max_per_keyword kw_list).1
  let aged := filter_by_age parse now raw max_age_hours
  curate aged keywords_by_category

/-- The deduplication rule exactly as the specification words it (with the
seen-URL and seen-title sets as genuine sets), for comparison with
`deduplicate`. -/
def specDedup (seenUrls seenTitles : Finset Str) : List RawItem → List RawItem
  | [] => []
  | art :: rest =>
    let url := pyStrip art.url
    let nt := normalize_title art.title
    if url ≠ [] ∧ url ∈ seenUrls then specDedup seenUrls seenTitles rest
    else if nt ≠ [] ∧ nt ∉ seenTitles then
      art :: specDedup (if url ≠ [] then insert url seenUrls else seenUrls)
        (insert nt seenTitles) rest
    else specDedup seenUrls seenTitles rest

/-- The publish timestamp of an item as the filter sees it: the trimmed
`pub_date` field when non-empty and parseable, otherwise nothing. -/
def parsedTimestamp (parse : Str → Option ParsedDate) (a : RawItem) :
    Option ParsedDate :=
  if pyStrip a.pubDate = [] then none else parse (pyStrip a.pubDate)

/-- The keep rule of the age filter as the claim words it: drop when no
parseable timestamp, else keep iff the UTC instant is at or after the
cutoff (inclusive). -/
def specKeepByAge (parse : Str → Option ParsedDate) (cutoff : Int)
    (a : RawItem) : Bool :=
  match parsedTimestamp parse a with
  | none => false
  | some pd => decide (cutoff ≤ utcInstant pd)

/-- Adjacent characters are never both whitespace. -/
def noWsPair (a b : Nat) : Prop := ¬(wsCp a = true ∧ wsCp b = true)

/-! ## Lemmas about deduplication -/

theorem dedupGo_sublist (st su : List Str) (l : List RawItem) :
    (dedupGo st su l).Sublist l := by
  induction l generalizing st su with
  | nil => simp [dedupGo]
  | cons a rest ih =>
    simp only [dedupGo]
    split
    · exact (ih ..).cons a
    · split
      · exact (ih ..).cons₂ a
      · exact (ih ..).cons a

theorem mem_dedupGo_title {a : RawItem} {st su : List Str} {l : List RawItem}
    (h : a ∈ dedupGo st su l) :
    normalize_title a.title ≠ [] ∧ normalize_title a.title ∉ st := by
  induction l generalizing st su with
  | nil => simp [dedupGo] at h
  | cons b rest ih =>
    simp only [dedupGo] at h
    split at h
    · exact ih h
    · split at h
      · rename_i hsk hacc
        rcases List.mem_cons.mp h with rfl | h
        · exact ⟨hacc.1, hacc.2⟩
        · obtain ⟨h1, h2⟩ := ih h
          exact ⟨h1, fun hm => h2 (List.mem_cons_of_mem _ hm)⟩
      · exact ih h

theorem mem_dedupGo_url {a : RawItem} {st su : List Str} {l : List RawItem}
    (h : a ∈ dedupGo st su l) (hne : pyStrip a.url ≠ []) :
    pyStrip a.url ∉ su := by
  induction l generalizing st su with
  | nil => simp [dedupGo] at h
  | cons b rest ih =>
    simp only [dedupGo] at h
    split at h
    · exact ih h
    · split at h
      · rename_i hsk hacc
        rcases List.mem_cons.mp h with rfl | h
        · exact fun hm => hsk ⟨hne, hm⟩
        · intro hm
          refine ih h ?_
          split
          · exact List.mem_cons_of_mem _ hm
          · exact hm
      · exact ih h

theorem dedupGo_pairwise (st su : List Str) (l : List RawItem) :
    (dedupGo st su l).Pairwise (fun a b =>
      normalize_title a.title ≠ normalize_title b.title ∧
      (pyStrip a.url = pyStrip b.url → pyStrip a.url = [])) := by
  induction l generalizing st su with
  | nil => simp [dedupGo]
  | cons a rest ih =>
    simp only [dedupGo]
    split
    · exact ih ..
    · split
      · rename_i hsk hacc
        refine List.Pairwise.cons (fun b hb => ?_) (ih ..)
        constructor
        · have := (mem_dedupGo_title hb).2
          simp only [List.mem_cons, not_or] at this
          exact fun he => this.1 he.symm
        · intro he
          by_contra hne
          have hbne : pyStrip b.url ≠ [] := fun h0 => hne (he.trans h0)
          have hmem := mem_dedupGo_url hb hbne
          rw [← he, if_pos hne] at hmem
          exact hmem (List.mem_cons_self _ _)
      · exact ih ..

theorem dedupGo_eq_specDedup (l : List RawItem) :
    ∀ (st su : List Str) (fs ft : Finset Str),
    (∀ x : Str, x ∈ su ↔ x ∈ fs) → (∀ x : Str, x ∈ st ↔ x ∈ ft) →
    dedupGo st su l = specDedup fs ft l := by
  induction l with
  | nil => intros; simp [dedupGo, specDedup]
  | cons a rest ih =>
    intro st su fs ft hsu hst
    simp only [dedupGo, specDedup, hsu, hst]
    split
    · exact ih st su fs ft hsu hst
    · split
      · refine congrArg _ (ih _ _ _ _ (fun x => ?_) (fun x => ?_))
        · split
          · simp [hsu]
          · exact hsu x
        · simp [hst]
      · exact ih st su fs ft hsu hst

/-! ## Claim theorems about deduplication (C1, C3, C9) -/

/-- C1, counterexample: the claim's "in particular" case fails on the code.
An item whose normalized title is empty and whose URL is non-empty and
unseen is NOT accepted: `deduplicate` drops it. -/
theorem deduplicate_drops_empty_title_item :
    deduplicate [⟨[], [117], []⟩] = [] ∧
    normalize_title ([] : Str) = [] ∧ pyStrip ([117] : Str) ≠ [] := by
  decide

/-- C1 (amended): `deduplicate` processes items in input order, is
order-preserving and first-occurrence-wins (the output is a sublist of the
input), and decides each item thus: an item with a non-empty URL already in
the seen-URL set is skipped; otherwise it is accepted exactly when its
normalized title is non-empty and not in the seen-title set (the normalized
title is then added to the title set and, if non-empty, the URL to the URL
set); in particular an item whose normalized title is empty is never
accepted. `specDedup` states this rule with genuine sets. -/
theorem deduplicate_amended_rule :
    ∀ articles : List RawItem,
      (deduplicate articles).Sublist articles ∧
      deduplicate articles = specDedup ∅ ∅ articles :=
  fun articles =>
    ⟨dedupGo_sublist [] [] articles,
     dedupGo_eq_specDedup articles [] [] ∅ ∅ (fun x => by simp) (fun x => by simp)⟩

/-- C3: in the output of `deduplicate` no two elements share the same
non-empty (whitespace-trimmed) URL, and no two share the same normalized
title. -/
theorem deduplicate_no_shared_url_or_title :
    ∀ articles : List RawItem,
      (deduplicate articles).Pairwise (fun a b =>
        normalize_title a.title ≠ normalize_title b.title ∧
        (pyStrip a.url = pyStrip b.url → pyStrip a.url = [])) :=
  fun articles => dedupGo_pairwise [] [] articles

/-- C3, witness: the pairwise guarantee evaluated on a concrete two-element
input that deduplicates to itself. -/
theorem deduplicate_no_shared_url_or_title_witness :
    normalize_title [97] ≠ normalize_title [98] := by
  have h := deduplicate_no_shared_url_or_title
    [⟨[97], [104], []⟩, ⟨[98], [105], []⟩]
  rw [(by decide : deduplicate [⟨[97], [104], []⟩, ⟨[98], [105], []⟩] =
    [⟨[97], [104], []⟩, ⟨[98], [105], []⟩])] at h
  exact ((List.pairwise_cons.mp h).1 _ (List.mem_cons_self _ _)).1

/-- C9: every element of the output of `deduplicate` has a non-empty
normalized title; an item whose title normalizes to the empty string is
never emitted. -/
theorem deduplicate_output_title_nonempty :
    ∀ (articles : List RawItem) (a : RawItem),
      a ∈ deduplicate articles → normalize_title a.title ≠ [] :=
  fun _ _ h => (mem_dedupGo_title h).1

/-- C9, witness: the guarantee applied to a concrete accepted item. -/
theorem deduplicate_output_title_nonempty_witness :
    normalize_title [97] ≠ ([] : Str) :=
  deduplicate_output_title_nonempty [⟨[97], [], []⟩] ⟨[97], [], []⟩ (by decide)

/-! ## Claim theorems about the review store (C2, C7, C10) -/

theorem length_filter_eq_iff {l : List Article} {p : Article → Bool} :
    (l.filter p).length = l.length ↔ ∀ a ∈ l, p a := by
  constructor
  · intro h
    exact List.filter_eq_self.mp ((List.filter_sublist l).eq_of_length h)
  · intro h
    rw [List.filter_eq_self.mpr h]

/-- C7, counterexample: with two stored articles sharing a URL,
`delete_by_url` removes both of them, not only the first. -/
theorem delete_by_url_removes_all_matches :
    (delete_by_url [⟨[97], [117], [99], false, []⟩,
                    ⟨[98], [117], [99], false, []⟩] [117]).1 = [] ∧
    (Article.mk [98] [117] [99] false []).url = [117] := by
  decide

/-- C7 (amended): `delete_by_url` removes every article whose url equals the
given URL (hence exactly the first one when at most one matches), leaves
articles with other URLs untouched in order, and returns true exactly when a
removal occurred. -/
theorem delete_by_url_spec :
    ∀ (l : List Article) (u : Str),
      (delete_by_url l u).1 = l.filter (fun a => decide (a.url ≠ u)) ∧
      ((delete_by_url l u).2 = true ↔ ∃ a ∈ l, a.url = u) := by
  intro l u
  refine ⟨rfl, ?_⟩
  simp only [delete_by_url, decide_eq_true_eq]
  constructor
  · intro hne
    by_contra hnex
    push_neg at hnex
    exact hne (length_filter_eq_iff.mpr (fun a ha => by
      simpa using hnex a ha))
  · intro ⟨a, ha, hau⟩ heq
    have := length_filter_eq_iff.mp heq a ha
    simp [hau] at this

/-- C7, witness: the characterization evaluated on a concrete store. -/
theorem delete_by_url_spec_witness :
    (delete_by_url [⟨[97], [117], [99], false, []⟩] [117]).2 = true := by
  refine (delete_by_url_spec [⟨[97], [117], [99], false, []⟩] [117]).2.mpr ?_
  exact ⟨⟨[97], [117], [99], false, []⟩, List.mem_cons_self _ _, rfl⟩

/-- C10: `set_selected` and `set_summary` change only the targeted field of
the first article whose url matches (title, url, category and all other
articles unchanged), and leave the store unchanged, returning false, when no
article matches. -/
theorem set_selected_summary_frame :
    ∀ (u : Str) (b : Bool) (txt : Str),
      (∀ l : List Article, (∀ x ∈ l, x.url ≠ u) →
        set_selected l u b = (l, false) ∧ set_summary l u txt = (l, false)) ∧
      (∀ (l1 l2 : List Article) (a : Article),
        (∀ x ∈ l1, x.url ≠ u) → a.url = u →
        set_selected (l1 ++ a :: l2) u b =
          (l1 ++ { a with selected := b } :: l2, true) ∧
        set_summary (l1 ++ a :: l2) u txt =
          (l1 ++ { a with summary := txt } :: l2, true)) := by
  intro u b txt
  constructor
  · intro l hl
    induction l with
    | nil => exact ⟨rfl, rfl⟩
    | cons x rest ih =>
      have hx : x.url ≠ u := hl x (List.mem_cons_self _ _)
      have hrest := ih (fun y hy => hl y (List.mem_cons_of_mem _ hy))
      simp [set_selected, set_summary, hx, hrest.1, hrest.2]
  · intro l1 l2 a h1 ha
    induction l1 with
    | nil => simp [set_selected, set_summary, ha]
    | cons x rest ih =>
      have hx : x.url ≠ u := h1 x (List.mem_cons_self _ _)
      have hrest := ih (fun y hy => h1 y (List.mem_cons_of_mem _ hy))
      simp [set_selected, set_summary, hx, hrest.1, hrest.2]

/-- C10, witness: both operations on a concrete one-article store. -/
theorem set_selected_summary_frame_witness :
    set_selected [⟨[97], [117], [99], false, []⟩] [117] true =
      ([⟨[97], [117], [99], true, []⟩], true) ∧
    set_summary [⟨[97], [117], [99], false, []⟩] [117] [115] =
      ([⟨[97], [117], [99], false, [115]⟩], true) := by
  have h := (set_selected_summary_frame [117] true [115]).2 [] []
    ⟨[97], [117], [99], false, []⟩ (by simp) rfl
  simpa using h

/-- C2: the spec-modelled `set_category` updates the category of the (first)
article with the given URL and returns true, and returns false, leaving the
store unchanged, when no article with that URL exists. -/
theorem set_category_spec :
    ∀ (u c : Str),
      (∀ l : List Article, (∀ x ∈ l, x.url ≠ u) →
        set_category l u c = (l, false)) ∧
      (∀ (l1 l2 : List Article) (a : Article),
        (∀ x ∈ l1, x.url ≠ u) → a.url = u →
        set_category (l1 ++ a :: l2) u c =
          (l1 ++ { a with category := c } :: l2, true)) := by
  intro u c
  constructor
  · intro l hl
    induction l with
    | nil => rfl
    | cons x rest ih =>
      have hx : x.url ≠ u := hl x (List.mem_cons_self _ _)
      have hrest := ih (fun y hy => hl y (List.mem_cons_of_mem _ hy))
      simp [set_category, hx, hrest]
  · intro l1 l2 a h1 ha
    induction l1 with
    | nil => simp [set_category, ha]
    | cons x rest ih =>
      have hx : x.url ≠ u := h1 x (List.mem_cons_self _ _)
      have hrest := ih (fun y hy => h1 y (List.mem_cons_of_mem _ hy))
      simp [set_category, hx, hrest]

/-- C2, witness: `set_category` on a concrete one-article store, and on a
store without the URL. -/
theorem set_category_spec_witness :
    set_category [⟨[97], [117], [99], false, []⟩] [117] [100] =
      ([⟨[97], [117], [100], false, []⟩], true) ∧
    set_category [⟨[97], [117], [99], false, []⟩] [118] [100] =
      ([⟨[97], [117], [99], false, []⟩], false) := by
  constructor
  · have h := (set_category_spec [117] [100]).2 [] []
      ⟨[97], [117], [99], false, []⟩ (by simp) rfl
    simpa using h
  · exact (set_category_spec [118] [100]).1 [⟨[97], [117], [99], false, []⟩]
      (by decide)

/-! ## Claim theorem for the categorizer (C5) -/

theorem isSubstr_iff (n : Str) : ∀ h : Str, isSubstr n h = true ↔ n <:+: h := by
  intro h
  induction h with
  | nil => simp [isSubstr, List.isEmpty_iff]
  | cons c t ih =>
    simp [isSubstr, List.isPrefixOf_iff_prefix, ih, List.infix_cons_iff]

theorem anyKeywordIn_eq (t : Str) (kws : List Str) :
    anyKeywordIn t kws = decide (∃ kw ∈ kws, lowerStr kw <:+: t) := by
  rw [Bool.eq_iff_iff]
  simp [anyKeywordIn, List.any_eq_true, isSubstr_iff]

/-- C5: `map_category` returns the first category (in the mapping's order)
having some keyword that is a case-insensitive substring of the title, and
the catch-all `"읽을거리"` when no keyword of any category matches; being a
function of title and mapping, it is deterministic and its tie-break is the
declaration order that `find?` follows. -/
theorem map_category_first_match :
    ∀ (title : Str) (kbc : List (Str × List Str)),
      map_category title kbc =
        ((kbc.find? (fun p =>
            decide (∃ kw ∈ p.2, lowerStr kw <:+: lowerStr title))).map
          Prod.fst).getD catchAllCategory := by
  intro title kbc
  rw [map_category]
  induction kbc with
  | nil => rfl
  | cons p rest ih =>
    obtain ⟨cat, kws⟩ := p
    by_cases hm : ∃ kw ∈ kws, lowerStr kw <:+: lowerStr title
    · have hb : anyKeywordIn (lowerStr title) kws = true := by
        rw [anyKeywordIn_eq]
        exact decide_eq_true hm
      have hf : List.find? (fun p =>
          decide (∃ kw ∈ p.2, lowerStr kw <:+: lowerStr title))
          ((cat, kws) :: rest) = some (cat, kws) :=
        List.find?_cons_of_pos rest (by simpa using hm)
      rw [mapCategoryGo, if_pos hb, hf]
      rfl
    · have hb : ¬anyKeywordIn (lowerStr title) kws = true := by
        rw [anyKeywordIn_eq]
        simpa using hm
      have hf : List.find? (fun p =>
          decide (∃ kw ∈ p.2, lowerStr kw <:+: lowerStr title))
          ((cat, kws) :: rest) =
          List.find? (fun p =>
            decide (∃ kw ∈ p.2, lowerStr kw <:+: lowerStr title)) rest :=
        List.find?_cons_of_neg rest (by simpa using hm)
      rw [mapCategoryGo, if_neg hb, hf]
      exact ih

/-! ## Claim theorem for the age filter (C4) -/

theorem filterByAgeGo_eq_filter (parse : Str → Option ParsedDate)
    (cutoff : Int) (items : List RawItem) :
    filterByAgeGo parse cutoff items =
      items.filter (specKeepByAge parse cutoff) := by
  induction items with
  | nil => rfl
  | cons a rest ih =>
    simp only [filterByAgeGo, List.filter_cons, specKeepByAge, parsedTimestamp]
    split
    · simpa using ih
    · cases hp : parse (pyStrip a.pubDate) with
      | none => simpa using ih
      | some pd =>
        by_cases hc : cutoff ≤ utcInstant pd
        · simp [hc, ih]
        · simp [hc, ih]

/-- C4: with `maxAgeHours` absent or ≤ 0 the age filter returns its input
unchanged; with `maxAgeHours = h > 0` and `cutoff = now - h` hours it keeps
exactly the items whose parseable publish timestamp, taken as UTC (a
timezone-less one is assumed UTC by `utcInstant`), is ≥ the cutoff; items
with no parseable timestamp are dropped, and nothing is ever raised (the
function is total). -/
theorem filter_by_age_spec :
    ∀ (parse : Str → Option ParsedDate) (now : Int) (items : List RawItem)
      (h : Int),
      filter_by_age parse now items none = items ∧
      (h ≤ 0 → filter_by_age parse now items (some h) = items) ∧
      (0 < h → filter_by_age parse now items (some h) =
        items.filter (specKeepByAge parse (now - h * 3600))) := by
  intro parse now items h
  refine ⟨rfl, fun hle => ?_, fun hpos => ?_⟩
  · simp [filter_by_age, hle]
  · rw [filter_by_age, if_neg (by omega)]
    exact filterByAgeGo_eq_filter parse (now - h * 3600) items

/-- C4, witness: a parseable item exactly at the cutoff is kept, and the
h ≤ 0 branch passes a timestamp-less item through, on concrete inputs. -/
theorem filter_by_age_spec_witness :
    filter_by_age (fun _ => some ⟨-3600, none⟩) 0 [⟨[], [], [88]⟩] (some 1) =
      [⟨[], [], [88]⟩] ∧
    filter_by_age (fun _ => none) 0 [⟨[], [], []⟩] (some 0) = [⟨[], [], []⟩] := by
  constructor
  · rw [(filter_by_age_spec (fun _ => some ⟨-3600, none⟩) 0
      [⟨[], [], [88]⟩] 1).2.2 (by norm_num)]
    decide
  · exact (filter_by_age_spec (fun _ => none) 0 [⟨[], [], []⟩] 0).2.1 le_rfl

/-! ## Claim theorem for the fetch orchestrator (C6) -/

theorem attemptPage_succ (provider : Provider) (idx budget : Nat) :
    attemptPage provider idx (budget + 1) =
      match provider idx with
      | .ok items => (some items, idx + 1)
      | .error _ => attemptPage provider (idx + 1) budget := rfl

theorem attemptPage_idx_le (provider : Provider) :
    ∀ (budget idx : Nat), (attemptPage provider idx budget).2 ≤ idx + budget := by
  intro budget
  induction budget with
  | zero => intro idx; simp [attemptPage]
  | succ b ih =>
    intro idx
    rw [attemptPage_succ]
    cases hc : provider idx with
    | ok items =>
      show (some items, idx + 1).2 ≤ idx + (b + 1)
      simp
    | error e =>
      show (attemptPage provider (idx + 1) b).2 ≤ idx + (b + 1)
      have := ih (idx + 1)
      omega

theorem attemptPage_all_error (provider : Provider)
    (hall : ∀ n, provider n = .error ()) :
    ∀ (budget idx : Nat), attemptPage provider idx budget = (none, idx + budget) := by
  intro budget
  induction budget with
  | zero => intro idx; rfl
  | succ b ih =>
    intro idx
    rw [attemptPage_succ, hall idx]
    show attemptPage provider (idx + 1) b = (none, idx + (b + 1))
    rw [ih (idx + 1)]
    have : idx + 1 + b = idx + (b + 1) := by omega
    rw [this]

theorem keywordLoop_three_failures (provider : Provider) (idx : Nat)
    (remaining : Int) (h0 : provider idx = .error ())
    (h1 : provider (idx + 1) = .error ()) (h2 : provider (idx + 2) = .error ())
    (hpos : 0 < remaining) :
    keywordLoop provider idx remaining = ([], idx + 3) := by
  have ha : attemptPage provider idx 3 = (none, idx + 3) := by
    rw [show (3 : Nat) = 2 + 1 from rfl, attemptPage_succ, h0]
    show attemptPage provider (idx + 1) 2 = (none, idx + 3)
    rw [show (2 : Nat) = 1 + 1 from rfl, attemptPage_succ, h1]
    show attemptPage provider (idx + 2) 1 = (none, idx + 3)
    rw [show (1 : Nat) = 0 + 1 from rfl, attemptPage_succ, h2]
    rfl
  unfold keywordLoop
  rw [dif_neg (by omega), ha]

theorem keywordLoop_fst_nil_of_all_error (provider : Provider)
    (hall : ∀ n, provider n = .error ()) (idx : Nat) (remaining : Int) :
    (keywordLoop provider idx remaining).1 = [] := by
  by_cases h : remaining ≤ 0
  · unfold keywordLoop
    rw [dif_pos h]
  · unfold keywordLoop
    rw [dif_neg h, attemptPage_all_error provider hall 3 idx]

theorem crawlKeywords_fst_nil (provider : Provider)
    (hall : ∀ n, provider n = .error ()) :
    ∀ (kws : List Str) (idx : Nat) (mpk : Int),
      (crawlKeywords provider idx mpk kws).1 = [] := by
  intro kws
  induction kws with
  | nil => intros; rfl
  | cons k rest ih =>
    intro idx mpk
    simp [crawlKeywords, keywordLoop_fst_nil_of_all_error provider hall, ih]

theorem filter_by_age_nil (parse : Str → Option ParsedDate) (now : Int)
    (mah : Option Int) : filter_by_age parse now [] mah = [] := by
  cases mah with
  | none => rfl
  | some h =>
    show (if h ≤ 0 then [] else filterByAgeGo parse (now - h * 3600) []) = []
    split <;> rfl

/-- C6: the retry loop makes at most 3 provider calls per page request;
exhausting all 3 attempts ends that keyword's collection with no items
(remaining is forced to 0, so the loop stops after the failed page); and
provider failures never propagate: with every call failing, the orchestrator
still returns (the curated result of nothing, i.e. the empty list). -/
theorem crawl_retry_spec :
    ∀ (provider : Provider) (idx : Nat) (remaining : Int),
      (attemptPage provider idx 3).2 ≤ idx + 3 ∧
      (provider idx = .error () → provider (idx + 1) = .error () →
        provider (idx + 2) = .error () → 0 < remaining →
        keywordLoop provider idx remaining = ([], idx + 3)) ∧
      ((∀ n, provider n = .error ()) →
        ∀ (parse : Str → Option ParsedDate) (now : Int) (kws : List Str)
          (mah : Option Int) (kbc : List (Str × List Str)),
          crawl_naver_news provider parse now kws remaining mah kbc = []) := by
  intro provider idx remaining
  refine ⟨attemptPage_idx_le provider 3 idx,
    keywordLoop_three_failures provider idx remaining, ?_⟩
  intro hall parse now kws mah kbc
  show curate (filter_by_age parse now
    (crawlKeywords provider 0 remaining kws).1 mah) kbc = []
  rw [crawlKeywords_fst_nil provider hall kws 0 remaining,
    filter_by_age_nil]
  rfl

/-- C6, witness: a provider that always fails, on concrete arguments. -/
theorem crawl_retry_spec_witness :
    keywordLoop (fun _ => .error ()) 0 5 = ([], 3) ∧
    crawl_naver_news (fun _ => .error ()) (fun _ => none) 0 [[107]] 5 none [] =
      [] := by
  have h := crawl_retry_spec (fun _ => .error ()) 0 5
  exact ⟨h.2.1 rfl rfl rfl (by norm_num),
    h.2.2 (fun _ => rfl) (fun _ => none) 0 [[107]] none []⟩

/-! ## Normalizer idempotence (C8): character-class lemmas -/

theorem wsCp_iff (n : Nat) : wsCp n = true ↔
    (n = 9 ∨ n = 10 ∨ n = 11 ∨ n = 12 ∨ n = 13 ∨ n = 32 ∨ n = 28 ∨ n = 29 ∨
     n = 30 ∨ n = 31 ∨ n = 133 ∨ n = 160 ∨ n = 5760 ∨
     (8192 ≤ n ∧ n ≤ 8202) ∨ n = 8232 ∨ n = 8233 ∨ n = 8239 ∨ n = 8287 ∨
     n = 12288) := by
  simp only [wsCp, Bool.or_eq_true, beq_iff_eq, Bool.and_eq_true,
    decide_eq_true_eq]
  tauto

theorem bracketCp_iff (n : Nat) : bracketCp n = true ↔
    (n = 91 ∨ n = 93 ∨ n = 40 ∨ n = 41 ∨ n = 123 ∨ n = 125 ∨ n = 45 ∨
     n = 8211 ∨ n = 8212) := by
  simp only [bracketCp, Bool.or_eq_true, beq_iff_eq]
  tauto

theorem lowerCp_idem (n : Nat) : lowerCp (lowerCp n) = lowerCp n := by
  simp only [lowerCp]
  split_ifs <;> omega

theorem wsCp_lowerCp (n : Nat) : wsCp (lowerCp n) = wsCp n := by
  rw [Bool.eq_iff_iff, wsCp_iff, wsCp_iff]
  unfold lowerCp
  split_ifs <;> omega

theorem bracketCp_lowerCp (n : Nat) : bracketCp (lowerCp n) = bracketCp n := by
  rw [Bool.eq_iff_iff, bracketCp_iff, bracketCp_iff]
  unfold lowerCp
  split_ifs <;> omega

/-! ## Normalizer idempotence (C8): structure of the collapsed string -/

theorem mem_subWsAux {c : Nat} :
    ∀ (s : Str) (b : Bool), c ∈ subWsAux b s → c = 32 ∨ c ∈ s := by
  intro s
  induction s with
  | nil => intro b h; cases b <;> simp [subWsAux] at h
  | cons d t ih =>
    intro b h
    cases b with
    | true =>
      simp only [subWsAux] at h
      split at h
      · rcases ih true h with h32 | hm
        · exact Or.inl h32
        · exact Or.inr (List.mem_cons_of_mem _ hm)
      · rcases List.mem_cons.mp h with rfl | h'
        · exact Or.inr (List.mem_cons_self _ _)
        · rcases ih false h' with h32 | hm
          · exact Or.inl h32
          · exact Or.inr (List.mem_cons_of_mem _ hm)
    | false =>
      simp only [subWsAux] at h
      split at h
      · rcases List.mem_cons.mp h with rfl | h'
        · exact Or.inl rfl
        · rcases ih true h' with h32 | hm
          · exact Or.inl h32
          · exact Or.inr (List.mem_cons_of_mem _ hm)
      · rcases List.mem_cons.mp h with rfl | h'
        · exact Or.inr (List.mem_cons_self _ _)
        · rcases ih false h' with h32 | hm
          · exact Or.inl h32
          · exact Or.inr (List.mem_cons_of_mem _ hm)

theorem subWsAux_ws_eq_32 {c : Nat} :
    ∀ (s : Str) (b : Bool), c ∈ subWsAux b s → wsCp c = true → c = 32 := by
  intro s
  induction s with
  | nil => intro b h; cases b <;> simp [subWsAux] at h
  | cons d t ih =>
    intro b h hw
    cases b with
    | true =>
      simp only [subWsAux] at h
      split at h
      · exact ih true h hw
      · rename_i hd
        rcases List.mem_cons.mp h with rfl | h'
        · exact absurd hw hd
        · exact ih false h' hw
    | false =>
      simp only [subWsAux] at h
      split at h
      · rcases List.mem_cons.mp h with rfl | h'
        · rfl
        · exact ih true h' hw
      · rename_i hd
        rcases List.mem_cons.mp h with rfl | h'
        · exact absurd hw hd
        · exact ih false h' hw

theorem head_subWsAux_true :
    ∀ (s : Str) (c : Nat), (subWsAux true s).head? = some c → wsCp c = false := by
  intro s
  induction s with
  | nil => intro c h; simp [subWsAux] at h
  | cons d t ih =>
    intro c h
    simp only [subWsAux] at h
    split at h
    · exact ih c h
    · rename_i hd
      simp only [List.head?_cons, Option.some.injEq] at h
      rw [← h]
      simpa using hd

theorem chain_subWsAux :
    ∀ (s : Str) (b : Bool), List.Chain' noWsPair (subWsAux b s) := by
  intro s
  induction s with
  | nil => intro b; cases b <;> simp [subWsAux]
  | cons d t ih =>
    intro b
    cases b with
    | true =>
      simp only [subWsAux]
      split
      · exact ih true
      · rename_i hd
        rw [List.chain'_cons']
        exact ⟨fun y _ hp => hd hp.1, ih false⟩
    | false =>
      simp only [subWsAux]
      split
      · rw [List.chain'_cons']
        refine ⟨fun y hy hp => ?_, ih true⟩
        have hwy := head_subWsAux_true t y (Option.mem_def.mp hy)
        rw [hwy] at hp
        exact absurd hp.2 (by simp)
      · rename_i hd
        rw [List.chain'_cons']
        exact ⟨fun y _ hp => hd hp.1, ih false⟩

theorem subWsAux_canonical :
    ∀ (y : Str), (∀ c ∈ y, wsCp c = true → c = 32) →
    List.Chain' noWsPair y →
    subWsAux false y = y ∧
    ((∀ c, y.head? = some c → wsCp c = false) → subWsAux true y = y) := by
  intro y
  induction y with
  | nil => intro _ _; exact ⟨rfl, fun _ => rfl⟩
  | cons d t ih =>
    intro hws hch
    have hws' : ∀ c ∈ t, wsCp c = true → c = 32 :=
      fun c hc => hws c (List.mem_cons_of_mem _ hc)
    have hch' : List.Chain' noWsPair t := (List.chain'_cons'.mp hch).2
    have iht := ih hws' hch'
    by_cases hd : wsCp d = true
    · have hd32 : d = 32 := hws d (List.mem_cons_self _ _) hd
      have hhead' : ∀ c, t.head? = some c → wsCp c = false := by
        intro c hc
        have := (List.chain'_cons'.mp hch).1 c (Option.mem_def.mpr hc)
        rw [noWsPair] at this
        by_contra hcc
        exact this ⟨hd, by simpa using hcc⟩
      constructor
      · simp only [subWsAux, if_pos hd, iht.2 hhead', hd32]
        rw [if_pos (by decide : wsCp 32 = true)]
      · intro hhead
        exact absurd (hhead d rfl) (by simp [hd])
    · constructor
      · simp only [subWsAux, if_neg hd, iht.1]
      · intro _
        simp only [subWsAux, if_neg hd, iht.1]

/-! ## Normalizer idempotence (C8): stripping lemmas and assembly -/

theorem head_dropWhile_ws :
    ∀ (s : Str) (c : Nat), (s.dropWhile wsCp).head? = some c → wsCp c = false := by
  intro s
  induction s with
  | nil => intro c h; simp at h
  | cons d t ih =>
    intro c h
    rw [List.dropWhile_cons] at h
    split at h
    · exact ih c h
    · rename_i hd
      simp only [List.head?_cons, Option.some.injEq] at h
      rw [← h]
      simpa using hd

theorem head_of_isPrefix {l m : Str} (h : l <+: m) {c : Nat}
    (hc : l.head? = some c) : m.head? = some c := by
  obtain ⟨t, rfl⟩ := h
  cases l with
  | nil => simp at hc
  | cons a u =>
    simp only [List.head?_cons, Option.some.injEq] at hc
    simpa using hc

theorem pyStrip_sublist (s : Str) : (pyStrip s).Sublist s := by
  have h1 := List.rdropWhile_prefix wsCp (s.dropWhile wsCp)
  have h2 : s.dropWhile wsCp <:+ s := List.dropWhile_suffix wsCp
  exact h1.sublist.trans h2.sublist

theorem pyStrip_chain {s : Str} (h : List.Chain' noWsPair s) :
    List.Chain' noWsPair (pyStrip s) := by
  have h2 : List.Chain' noWsPair (s.dropWhile wsCp) :=
    List.Chain'.suffix h (List.dropWhile_suffix wsCp)
  have hp := List.rdropWhile_prefix wsCp (s.dropWhile wsCp)
  exact List.Chain'.prefix h2 hp

theorem pyStrip_head (s : Str) (c : Nat) (h : (pyStrip s).head? = some c) :
    wsCp c = false := by
  have hp := List.rdropWhile_prefix wsCp (s.dropWhile wsCp)
  exact head_dropWhile_ws s c (head_of_isPrefix hp h)

theorem pyStrip_last (s : Str) :
    ∀ h : pyStrip s ≠ [], wsCp ((pyStrip s).getLast h) = false := by
  intro h
  have := List.rdropWhile_last_not wsCp (s.dropWhile wsCp) h
  simpa using this

/-- Characters of a normalized title are lowercase-fixed and non-bracket. -/
theorem normalize_chars {t : Str} {c : Nat} (hc : c ∈ normalize_title t) :
    lowerCp c = c ∧ bracketCp c = false := by
  have hmem : c ∈ subWs ((lowerStr t).filter (fun x => !bracketCp x)) :=
    (pyStrip_sublist _).subset hc
  rcases mem_subWsAux _ false hmem with rfl | hm
  · exact ⟨by decide, by decide⟩
  · have hf := List.mem_filter.mp hm
    have hbr : bracketCp c = false := by simpa using hf.2
    obtain ⟨d, _, rfl⟩ := List.mem_map.mp hf.1
    exact ⟨lowerCp_idem d, hbr⟩

theorem normalize_allWs32 {t : Str} {c : Nat} (hc : c ∈ normalize_title t)
    (hw : wsCp c = true) : c = 32 :=
  subWsAux_ws_eq_32 _ false ((pyStrip_sublist _).subset hc) hw

theorem normalize_chain (t : Str) :
    List.Chain' noWsPair (normalize_title t) :=
  pyStrip_chain (chain_subWsAux _ false)

theorem normalize_head (t : Str) (c : Nat)
    (h : (normalize_title t).head? = some c) : wsCp c = false :=
  pyStrip_head _ c h

theorem normalize_last (t : Str) :
    ∀ h : normalize_title t ≠ [], wsCp ((normalize_title t).getLast h) = false :=
  fun h => pyStrip_last _ h

/-- Any string whose characters are lowercase-fixed, bracket-free, with all
whitespace being single interior spaces, is a fixed point of
`normalize_title`. -/
theorem normalize_fixed {y : Str}
    (hlow : ∀ c ∈ y, lowerCp c = c)
    (hbr : ∀ c ∈ y, bracketCp c = false)
    (hws : ∀ c ∈ y, wsCp c = true → c = 32)
    (hch : List.Chain' noWsPair y)
    (hhead : ∀ c, y.head? = some c → wsCp c = false)
    (hlast : ∀ h : y ≠ [], wsCp (y.getLast h) = false) :
    normalize_title y = y := by
  have h1 : lowerStr y = y := (List.map_congr_left hlow).trans (List.map_id y)
  have h2 : y.filter (fun c => !bracketCp c) = y :=
    List.filter_eq_self.mpr (fun c hc => by simp [hbr c hc])
  have h3 : subWs y = y := (subWsAux_canonical y hws hch).1
  have h4d : y.dropWhile wsCp = y := by
    cases y with
    | nil => rfl
    | cons a u =>
      have ha : wsCp a = false := hhead a rfl
      rw [List.dropWhile_cons, if_neg (by simp [ha])]
  have h4r : List.rdropWhile wsCp y = y :=
    List.rdropWhile_eq_self_iff.mpr (fun hl => by simp [hlast hl])
  show pyStrip (subWs ((lowerStr y).filter (fun c => !bracketCp c))) = y
  rw [h1, h2, h3]
  show List.rdropWhile wsCp (y.dropWhile wsCp) = y
  rw [h4d, h4r]

/-- C8: title normalization is idempotent:
`normalize(normalize(x)) = normalize(x)` for every string. -/
theorem normalize_title_idempotent :
    ∀ t : Str, normalize_title (normalize_title t) = normalize_title t := by
  intro t
  apply normalize_fixed
  · exact fun c hc => (normalize_chars hc).1
  · exact fun c hc => (normalize_chars hc).2
  · exact fun c hc hw => normalize_allWs32 hc hw
  · exact normalize_chain t
  · exact fun c hc => normalize_head t c hc
  · exact fun h => normalize_last t h

end NewsMVP
